import Mathlib

set_option autoImplicit false

/-!
Verification development for the context-harvester repository.

The JavaScript sources are shallowly embedded as Lean functions:
strings are Lean `String`s (one `Char` per JS character), JS objects with
numeric keys are id-sorted association lists, JS objects with string keys
are insertion-ordered association lists, and the external tokenizer is an
arbitrary function `tok : String → Nat`.  Loops that are not structurally
recursive are modelled with explicit fuel, returning `none` when the fuel
runs out (divergence).
-/

/-! ## String primitives: models of JS `indexOf` and `substring` -/

/-- Model of JS `haystack.indexOf(needle)` (position of the first
occurrence), recursing over the haystack characters. -/
def strIndexOfAux (needle : List Char) : List Char → Nat → Option Nat
  | [], i => if needle.isPrefixOf ([] : List Char) then some i else none
  | c :: t, i => if needle.isPrefixOf (c :: t) then some i else strIndexOfAux needle t (i + 1)

/-- JS `hay.indexOf(needle)`: `none` models the `-1` result. -/
def strIndexOf (hay needle : String) : Option Nat :=
  strIndexOfAux needle.toList hay.toList 0

/-- JS `s.substring(0, n)`. -/
def strTake (s : String) (n : Nat) : String :=
  (s.toList.take n).asString

/-- JS `s.substring(n)`. -/
def strDrop (s : String) (n : Nat) : String :=
  (s.toList.drop n).asString

/-! ## Context Merge Engine (src/utils.js) -/

def AI_CONTEXT_SECTION_START : String := "✨ AI Context"

def AI_CONTEXT_SECTION_END : String := "✨ 🔚"

/-- The start sentinel as searched for by the code: the fixed header
preceded by a blank line (`"\n\n" + AI_CONTEXT_SECTION_START + "\n"`). -/
def aiContextSection : String := "\n\n" ++ AI_CONTEXT_SECTION_START ++ "\n"

/-- The end sentinel as searched for by the code
(`"\n" + AI_CONTEXT_SECTION_END`). -/
def endAiContextSection : String := "\n" ++ AI_CONTEXT_SECTION_END

/-- Model of `appendAiContext(context, aiContext)` from src/utils.js:
if both markers are found, replace everything between the first start-marker
occurrence and the first end-marker occurrence by the newline-joined
fragments; otherwise append a fresh delimited section at the end. -/
def appendAiContext (context : String) (aiContext : List String) : String :=
  match strIndexOf context aiContextSection, strIndexOf context endAiContextSection with
  | some i, some j =>
      strTake context i ++ aiContextSection ++ String.intercalate "\n" aiContext
        ++ endAiContextSection ++ strDrop context (j + endAiContextSection.length)
  | _, _ =>
      context ++ aiContextSection ++ String.intercalate "\n" aiContext ++ endAiContextSection

/-- Model of `removeAIContext(context)` from src/utils.js: empty (falsy)
input is returned unchanged; when both markers are found the whole section,
markers included, is cut out; otherwise the input is returned unchanged. -/
def removeAIContext (context : String) : String :=
  if context = "" then context
  else
    match strIndexOf context aiContextSection, strIndexOf context endAiContextSection with
    | some i, some j => strTake context i ++ strDrop context (j + endAiContextSection.length)
    | _, _ => context

/-! ## Data model -/

/-- A Crowdin source string as used by the harvest pipeline: the fields kept
by `stringifyStrings` plus the `aiContext` accumulator added during a run
(`none` models the JS property being absent). -/
structure CrowdinString where
  id : Int
  text : String
  identifier : String
  context : String
  aiContext : Option (List String)
deriving DecidableEq

/-! ## JSON serialization (model of `JSON.stringify(obj, null, 2)`) -/

def hexDigit (n : Nat) : Char :=
  if n < 10 then Char.ofNat (48 + n) else Char.ofNat (87 + n)

/-- JSON string escaping as performed by `JSON.stringify`. -/
def jsonEscapeChar (c : Char) : String :=
  if c = '"' then "\\\""
  else if c = '\\' then "\\\\"
  else if c = '\n' then "\\n"
  else if c = '\r' then "\\r"
  else if c = '\t' then "\\t"
  else if c.toNat < 32 then
    "\\u00" ++ String.singleton (hexDigit (c.toNat / 16)) ++ String.singleton (hexDigit (c.toNat % 16))
  else String.singleton c

def jsonEscape (s : String) : String :=
  String.join (s.toList.map jsonEscapeChar)

def jsonStr (s : String) : String :=
  "\"" ++ jsonEscape s ++ "\""

/-- One entry of the 2-space-indented JSON object produced by
`stringifyStrings`: the string id is the key, the value keeps only
id/text/identifier/context. -/
def stringifyEntry (s : CrowdinString) : String :=
  "  " ++ jsonStr (toString s.id) ++ ": \x7b\n"
    ++ "    \"id\": " ++ toString s.id ++ ",\n"
    ++ "    \"text\": " ++ jsonStr s.text ++ ",\n"
    ++ "    \"identifier\": " ++ jsonStr s.identifier ++ ",\n"
    ++ "    \"context\": " ++ jsonStr s.context ++ "\n"
    ++ "  \x7d"

/-- Model of `stringifyStrings({ strings })` from the batch pipeline:
`JSON.stringify` of the id-keyed object, dropping bookkeeping fields.  A
chunk (JS object with numeric keys) is represented as a list sorted in
ascending id order, matching JS numeric-key iteration order. -/
def stringifyStrings (chunk : List CrowdinString) : String :=
  match chunk with
  | [] => "\x7b\x7d"
  | _ => "\x7b\n" ++ String.intercalate ",\n" (chunk.map stringifyEntry) ++ "\n\x7d"

/-! ## Strings Chunk Planner (`getStringsChunks`) -/

/-- `chunk[string.id] = string`: insertion into the id-sorted association
list, replacing an existing entry with the same id (JS objects iterate
integer-like keys in ascending order). -/
def insertChunk : List CrowdinString → CrowdinString → List CrowdinString
  | [], s => [s]
  | t :: ts, s =>
      if s.id < t.id then s :: t :: ts
      else if s.id = t.id then s :: ts
      else t :: insertChunk ts s

/-- `delete chunk[i]`. -/
def eraseIdChunk (chunk : List CrowdinString) (i : Int) : List CrowdinString :=
  chunk.filter (fun t => t.id ≠ i)

/-- The inner `for (let string of stringsToProceed)` loop of
`getStringsChunks`: add strings one at a time; as soon as the serialized
chunk exceeds the limit, delete the string just added and stop. -/
def buildStringsChunk (tok : String → Nat) (chunkLimit : Nat) :
    List CrowdinString → List CrowdinString → List CrowdinString
  | chunk, [] => chunk
  | chunk, s :: rest =>
      let c := insertChunk chunk s
      if chunkLimit < tok (stringifyStrings c) then eraseIdChunk c s.id
      else buildStringsChunk tok chunkLimit c rest

/-- One iteration of the `while (stringsToProceed.length)` loop: build a
chunk, then remove the chunk member ids from the pending list. -/
def stringsChunkStep (tok : String → Nat) (chunkLimit : Nat)
    (pending : List CrowdinString) : List CrowdinString × List CrowdinString :=
  let chunk := buildStringsChunk tok chunkLimit [] pending
  (chunk, pending.filter (fun s => !((chunk.map (fun t => t.id)).contains s.id)))

/-- Fuel-indexed model of `getStringsChunks({crowdinStrings, tokenizer,
chunkLimit})`.  The JS `while` loop has no other bound; `none` means the
loop has not terminated within `fuel` iterations (for inputs where an
iteration makes no progress, the result is `none` for every fuel, i.e. the
JS function diverges). -/
def getStringsChunksFuel (tok : String → Nat) (chunkLimit : Nat) :
    Nat → List CrowdinString → Option (List (List CrowdinString))
  | _, [] => some []
  | 0, _ :: _ => none
  | fuel + 1, s :: rest =>
      let step := stringsChunkStep tok chunkLimit (s :: rest)
      match getStringsChunksFuel tok chunkLimit fuel step.2 with
      | none => none
      | some cs => some (step.1 :: cs)

/-- A single string whose serialized form alone exceeds a chunk limit of 0
synthetic tokens (tokenizer = character count). -/
def oversizedSaveString : CrowdinString :=
  ⟨1, "Save", "btn.save", "", none⟩

/-! ## File-content Chunk Planner (the files loop of `chunkAndExtract`) -/

/-- `filesContent`: a JS object with string (file-path) keys, i.e. an
insertion-ordered association list. -/
abbrev FilesContent := List (String × String)

/-- JS property read `fc[k]`. -/
def lookupKey (fc : FilesContent) (k : String) : Option String :=
  match fc with
  | [] => none
  | (k0, v) :: rest => if k0 = k then some v else lookupKey rest k

/-- JS property write `fc[k] = v`: replace in place when the key exists,
append otherwise. -/
def setKey (fc : FilesContent) (k : String) (v : String) : FilesContent :=
  match fc with
  | [] => [(k, v)]
  | (k0, v0) :: rest => if k0 = k then (k0, v) :: rest else (k0, v0) :: setKey rest k v

/-- JS `delete fc[k]`. -/
def eraseKey (fc : FilesContent) (k : String) : FilesContent :=
  fc.filter (fun e => e.1 ≠ k)

/-- `chunkIdentifiers.forEach(identifier => delete filesContent[identifier])`. -/
def eraseKeys (fc : FilesContent) (ks : List String) : FilesContent :=
  ks.foldl (fun acc k => eraseKey acc k) fc

/-- `stringifyFiles({ files })` = `files.join('')`. -/
def stringifyFiles (files : List String) : String :=
  String.join files

/-- Consecutive pieces of at most `n` characters. -/
def chunksOfChars (n : Nat) : List Char → List (List Char)
  | [] => []
  | c :: cs => (c :: cs.take (n - 1)) :: chunksOfChars n (cs.drop (n - 1))
termination_by l => l.length
decreasing_by
  simp only [List.length_drop, List.length_cons]
  omega

/-- `curr.match(new RegExp('(.|[\r\n]){1,' + Math.ceil(curr.length / 2) + '}', 'g'))`:
split into consecutive pieces of at most `⌈length / 2⌉` characters.  A JS
`match` on the empty string returns `null` (modelled as `none`), which makes
the enclosing `reduce` throw. -/
def matchHalves (curr : String) : Option (List String) :=
  if curr = "" then none
  else some ((chunksOfChars ((curr.length + 1) / 2) curr.toList).map List.asString)

/-- The `largeFileParts.reduce` step: bisect every part; `none` models the
TypeError thrown when spreading a `null` match result. -/
def splitAllParts : List String → Option (List String)
  | [] => some []
  | p :: ps =>
      match matchHalves p, splitAllParts ps with
      | some xs, some ys => some (xs ++ ys)
      | _, _ => none

def maxNumbersOfSplit : Nat := 10

/-- The `while (splitsCount < maxNumbersOfSplit && ...)` bisection loop;
only the first part is measured against the limit.  (The parts list is
never empty on the reachable inputs: bisection of a nonempty string yields
nonempty pieces.) -/
def splitLoop (tok : String → Nat) (limit : Nat) (header : String) :
    Nat → List String → Option (Nat × List String)
  | count, parts =>
      if _h : count < maxNumbersOfSplit then
        if limit < tok (stringifyFiles [header ++ parts.headD ""]) then
          match splitAllParts parts with
          | none => none
          | some parts2 => splitLoop tok limit header (count + 1) parts2
        else some (count, parts)
      else some (count, parts)
termination_by count _ => maxNumbersOfSplit - count
decreasing_by
  omega

/-- JS `s.replace(pat, rep)` with a string pattern: replace the first
occurrence only. -/
def replaceFirst (s pat rep : String) : String :=
  match strIndexOf s pat with
  | none => s
  | some i => strTake s i ++ rep ++ strDrop s (i + pat.length)

/-- The large-file branch of the files loop: strip the `Content of` header,
bisect until the first part fits or the split ceiling is reached.
`some parts` means the parts are re-added under `key-i` keys; `none` means
the file is logged as too large to be processed and dropped. -/
def splitLargeFile (tok : String → Nat) (limit : Nat) (fileKey content : String) :
    Option (List String) :=
  let first := replaceFirst content ("Content of " ++ fileKey ++ ":") ""
  let header := "Part of " ++ fileKey ++ " content:\n```\n"
  match splitLoop tok limit header 0 [first] with
  | none => none
  | some (count, parts) => if maxNumbersOfSplit ≤ count then none else some parts

/-- `for (let i = 0; i < largeFileParts.length; i++) fc[key + '-' + i] = parts[i]`. -/
def addParts (fc : FilesContent) (fileKey : String) (parts : List String) : FilesContent :=
  parts.enum.foldl (fun acc p => setKey acc (fileKey ++ "-" ++ toString p.1) p.2) fc

/-- The state after one `for (let fileKey of Object.keys(filesContent))`
pass: the remaining `filesContent`, the current `chunk` object, and the
chunks pushed onto `filesChunks` during the pass (at most one, pushed by
the overflow `break`). -/
structure FilesPassResult where
  fc : FilesContent
  chunk : FilesContent
  pushed : List (List String)
deriving DecidableEq

/-- The `filesContent` update performed by the large-file branch: add the
split parts (when the ceiling was not hit) under `key-i` keys, then delete
the original key. -/
def filesSplitUpdate (tok : String → Nat) (limit : Nat) (fc : FilesContent)
    (k content : String) : FilesContent :=
  match splitLargeFile tok limit k content with
  | none => eraseKey fc k
  | some parts => eraseKey (addParts fc k parts) k

/-- `delete chunk[fileKey]` right after `chunk[fileKey] = content` made the
serialized chunk overflow. -/
def closedChunk (chunk : FilesContent) (k content : String) : FilesContent :=
  eraseKey (setKey chunk k content) k

/-- One pass of the inner `for` loop over a snapshot of the keys. -/
def filesPass (tok : String → Nat) (limit : Nat) :
    List String → FilesContent → FilesContent → FilesPassResult
  | [], fc, chunk => ⟨fc, chunk, []⟩
  | k :: rest, fc, chunk =>
      match lookupKey fc k with
      | none => filesPass tok limit rest fc chunk
      | some content =>
          if limit < tok content then
            filesPass tok limit rest (filesSplitUpdate tok limit fc k content) chunk
          else
            if limit < tok (stringifyFiles ((setKey chunk k content).map (fun e => e.2))) then
              ⟨eraseKeys fc ((closedChunk chunk k content).map (fun e => e.1)),
               closedChunk chunk k content,
               [(closedChunk chunk k content).map (fun e => e.2)]⟩
            else filesPass tok limit rest fc (setKey chunk k content)

/-- One iteration of the outer `while` loop starts by taking the key
snapshot `Object.keys(filesContent)` and running the pass with a fresh
empty `chunk`. -/
def filesPassFull (tok : String → Nat) (limit : Nat) (fc : FilesContent) : FilesPassResult :=
  filesPass tok limit (fc.map (fun p => p.1)) fc []

/-- The chunks appended to `filesChunks` by one outer-loop iteration: the
pass pushes (via `break`), and afterwards — break or not — the `if
(Object.keys(chunk).length === Object.keys(filesContent).length)` test
pushes the current chunk once more when the key counts coincide. -/
def filesNewChunks (tok : String → Nat) (limit : Nat) (fc : FilesContent) :
    List (List String) :=
  if (filesPassFull tok limit fc).chunk.length = (filesPassFull tok limit fc).fc.length
  then (filesPassFull tok limit fc).pushed
        ++ [(filesPassFull tok limit fc).chunk.map (fun p => p.2)]
  else (filesPassFull tok limit fc).pushed

/-- The `filesContent` left for the next outer-loop iteration (`[]` when the
count test cleared it). -/
def filesNextFc (tok : String → Nat) (limit : Nat) (fc : FilesContent) : FilesContent :=
  if (filesPassFull tok limit fc).chunk.length = (filesPassFull tok limit fc).fc.length
  then [] else (filesPassFull tok limit fc).fc

/-- Fuel-indexed model of the `while (Object.keys(filesContent).length)`
loop of `chunkAndExtract`. -/
def filesChunksLoop (tok : String → Nat) (limit : Nat) :
    Nat → FilesContent → Option (List (List String))
  | _, [] => some []
  | 0, _ :: _ => none
  | fuel + 1, e :: fcRest =>
      match filesChunksLoop tok limit fuel (filesNextFc tok limit (e :: fcRest)) with
      | none => none
      | some cs => some (filesNewChunks tok limit (e :: fcRest) ++ cs)

/-! ## Context merge onto strings (`appendContext`, src/harvest.js) -/

/-- A normalized extraction result `{id, context}`.  `context` is `Option`
because the agentic path records `context: null` when the agent found
nothing. -/
structure ContextResult where
  id : Int
  context : Option String
deriving DecidableEq

/-- JS truthiness of `context?.context`: `null`/`undefined` and the empty
string are falsy. -/
def truthyContext (r : ContextResult) : Option String :=
  match r.context with
  | none => none
  | some c => if c = "" then none else some c

/-- `if (!string.aiContext) string.aiContext = []; string.aiContext.push(context.context)`
applied to the found string, guarded by the truthiness of the context. -/
def applyResult (s : CrowdinString) (r : ContextResult) : CrowdinString :=
  match truthyContext r with
  | none => s
  | some c => ⟨s.id, s.text, s.identifier, s.context, some (s.aiContext.getD [] ++ [c])⟩

/-- One iteration of the `for (const context of stringsContext.contexts)`
loop: `strings.find(s => s.id === context.id)` locates the first string with
the result id; an unknown id or a falsy context changes nothing. -/
def appendContextOne : List CrowdinString → ContextResult → List CrowdinString
  | [], _ => []
  | s :: rest, r =>
      if s.id = r.id then applyResult s r :: rest
      else s :: appendContextOne rest r

/-- Model of `appendContext(strings, stringsContext)` (src/harvest.js):
apply every extraction result in order. -/
def appendContext (strings : List CrowdinString) (results : List ContextResult) :
    List CrowdinString :=
  results.foldl appendContextOne strings

/-- The accumulated context-fragment list of a string (absent = empty). -/
def fragmentsOf (s : CrowdinString) : List String :=
  s.aiContext.getD []

/-! ## Outgoing batch patch (`uploadAiStringsToCrowdin`, src/utils.js) -/

/-- One JSON-Patch style operation of the batch request. -/
structure PatchOp where
  op : String
  path : String
  value : String
deriving DecidableEq

/-- `` `/${string.id}/context` ``. -/
def contextPath (s : CrowdinString) : String :=
  "/" ++ toString s.id ++ "/context"

/-- The `contextUpdateBatchRequest` built by `uploadAiStringsToCrowdin`:
keep strings with `string?.aiContext?.length > 0 || uploadAll`, then one
`replace` operation per kept string; the patched value is the marker-merged
context, or the loaded `context` field verbatim in upload-all mode. -/
def contextUpdateBatchRequest (strings : List CrowdinString) (uploadAll : Bool) :
    List PatchOp :=
  (strings.filter (fun s => decide (0 < (s.aiContext.getD []).length) || uploadAll)).map
    (fun s => ⟨"replace", contextPath s,
      if uploadAll then s.context else appendAiContext s.context (s.aiContext.getD [])⟩)

/-! ## Concurrent per-string scheduler (`runConcurrentWorkers`, src/harvest.js) -/

/-- Worker status: about to check the shared cursor, awaiting
`worker(items[idx])`, or returned. -/
inductive WorkerStatus where
  | ready : WorkerStatus
  | running : Nat → WorkerStatus
  | finished : WorkerStatus
deriving DecidableEq

/-- The shared state of `runConcurrentWorkers`: the claim cursor, the worker
pool, and the indices whose `worker(...)` call has completed, in completion
order (the order of `results.push`). -/
structure PoolState where
  cursor : Nat
  workers : List WorkerStatus
  done : List Nat
deriving DecidableEq

/-- One cooperative step, advancing worker `w` (the nondeterministic I/O
interleaving).  JS is single-threaded, so the `cursor >= items.length`
check and `cursor++` form one atomic step (no `await` between them);
completing the awaited `worker` call is the other step.  Steps on a
finished (or nonexistent) worker change nothing. -/
def poolStep (len : Nat) (st : PoolState) (w : Nat) : PoolState :=
  match st.workers[w]? with
  | none => st
  | some WorkerStatus.ready =>
      if len ≤ st.cursor then ⟨st.cursor, st.workers.set w WorkerStatus.finished, st.done⟩
      else ⟨st.cursor + 1, st.workers.set w (WorkerStatus.running st.cursor), st.done⟩
  | some (WorkerStatus.running i) =>
      ⟨st.cursor, st.workers.set w WorkerStatus.ready, st.done ++ [i]⟩
  | some WorkerStatus.finished => st

/-- `Array.from({ length: Math.max(1, concurrency) }, ...)`: the initial
pool of clamped size, every worker about to claim. -/
def initPool (concurrency : Nat) : PoolState :=
  ⟨0, List.replicate (max 1 concurrency) WorkerStatus.ready, []⟩

/-- Run the scheduler under an interleaving (a list of worker choices). -/
def runPool (len : Nat) (sched : List Nat) (st : PoolState) : PoolState :=
  sched.foldl (poolStep len) st

/-- `await Promise.all(workers)` has resolved: every worker returned. -/
def poolDone (st : PoolState) : Bool :=
  st.workers.all (fun w => w = WorkerStatus.finished)

/-- The claimed index of a running worker. -/
def runningIdx : WorkerStatus → Option Nat
  | WorkerStatus.running i => some i
  | _ => none

/-- The indices currently claimed but not completed. -/
def inflight (st : PoolState) : List Nat :=
  st.workers.filterMap runningIdx

/-- The scheduler invariant: the cursor never passes the item count, the
completed and in-flight indices together are exactly the claimed prefix
`[0, cursor)`, and a worker can only have finished once the cursor reached
the end. -/
def PoolInv (len : Nat) (st : PoolState) : Prop :=
  st.cursor ≤ len
    ∧ (st.done ++ inflight st).Perm (List.range st.cursor)
    ∧ (WorkerStatus.finished ∈ st.workers → len ≤ st.cursor)

/-- The `results` list built by `extractContexts` from the completed
indices: `processSingleString` is deterministic per string (`f` models the
fixed provider response), and `if (context) results.push({id, context})`
keeps truthy contexts only. -/
def workerResults (items : List CrowdinString) (f : CrowdinString → Option String)
    (done : List Nat) : List ContextResult :=
  done.filterMap (fun i =>
    match items[i]? with
    | none => none
    | some s =>
        match f s with
        | none => none
        | some c => if c = "" then none else some ⟨s.id, some c⟩)

/-! ## The `since` filter of `fetchCrowdinStrings` (src/utils.js) -/

/-- A fetched Crowdin string, with the `createdAt` bookkeeping field used by
the `since` filter (`none` models the property being absent). -/
structure FetchedString where
  id : Int
  text : String
  identifier : String
  context : String
  createdAt : Option String
deriving DecidableEq

/-- `since ? chrono.parseDate(String(since).trim()) : null`: `since` is
falsy when absent or empty; `parseSince` abstracts `chrono.parseDate`
(`none` models `null`), yielding a timestamp. -/
def sinceDateOf (parseSince : String → Option Int) (since : Option String) : Option Int :=
  match since with
  | none => none
  | some s => if s = "" then none else parseSince s.trim

/-- The `since` filter applied to the fetched strings: keep strings whose
`createdAt` is truthy and parses (`parseCreated` abstracts `Date.parse`,
`none` models NaN) to a timestamp at or after the since date; with no since
date the list is returned unchanged. -/
def filterSince (parseSince parseCreated : String → Option Int)
    (since : Option String) (strs : List FetchedString) : List FetchedString :=
  match sinceDateOf parseSince since with
  | none => strs
  | some t =>
      strs.filter (fun str =>
        match str.createdAt with
        | none => false
        | some ca =>
            if ca = "" then false
            else
              match parseCreated ca with
              | none => false
              | some ts => decide (t ≤ ts))

/-! ## Helper lemmas about the string primitives -/

theorem asString_toList (s : String) : s.toList.asString = s := rfl

theorem toList_append (a b : String) : (a ++ b).toList = a.toList ++ b.toList :=
  String.data_append a b

theorem length_toList (s : String) : s.toList.length = s.length := rfl

theorem strTake_append_length (a b : String) : strTake (a ++ b) a.length = a := by
  unfold strTake
  rw [toList_append, ← length_toList a, List.take_left, asString_toList]

theorem strDrop_of_length_le (s : String) (n : Nat) (h : s.length ≤ n) : strDrop s n = "" := by
  unfold strDrop
  rw [List.drop_eq_nil_of_le (by simpa [length_toList] using h)]
  rfl

theorem str_append_empty (s : String) : s ++ "" = s := by
  apply congrArg String.mk
  exact List.append_nil s.data

/-- The shape of `appendAiContext` when the context does not contain the
start marker (the fresh-append branch). -/
theorem appendAiContext_of_no_start (c : String) (fs : List String)
    (h1 : strIndexOf c aiContextSection = none) :
    appendAiContext c fs
      = c ++ aiContextSection ++ String.intercalate "\n" fs ++ endAiContextSection := by
  unfold appendAiContext
  rw [h1]

/-- The shape of `appendAiContext` when both markers are found (the replace
branch). -/
theorem appendAiContext_of_found (c : String) (fs : List String) (i j : Nat)
    (hi : strIndexOf c aiContextSection = some i)
    (hj : strIndexOf c endAiContextSection = some j) :
    appendAiContext c fs
      = strTake c i ++ aiContextSection ++ String.intercalate "\n" fs
          ++ endAiContextSection ++ strDrop c (j + endAiContextSection.length) := by
  unfold appendAiContext
  rw [hi, hj]

/-- The shape of `removeAIContext` when both markers are found. -/
theorem removeAIContext_of_found (c : String) (i j : Nat) (hne : c ≠ "")
    (hi : strIndexOf c aiContextSection = some i)
    (hj : strIndexOf c endAiContextSection = some j) :
    removeAIContext c = strTake c i ++ strDrop c (j + endAiContextSection.length) := by
  unfold removeAIContext
  rw [if_neg hne, hi, hj]

/-- Claim C2 counterexample: on a context that contains the start marker but
not the end marker, applying `appendAiContext` twice with the same fragment
list does not equal applying it once (the start marker is duplicated). -/
theorem appendAiContext_not_idempotent_cex :
    appendAiContext (appendAiContext "\n\n✨ AI Context\n" ["x"]) ["x"]
      ≠ appendAiContext "\n\n✨ AI Context\n" ["x"] := by decide

/-- Claim C2 (amended): `appendAiContext` is idempotent for a given fragment
list provided the context does not contain the start marker and, in the
once-appended result, the first occurrences of the start and end markers are
the freshly appended ones. -/
theorem appendAiContext_idem (c : String) (fs : List String)
    (h1 : strIndexOf c aiContextSection = none)
    (h2 : strIndexOf (appendAiContext c fs) aiContextSection = some c.length)
    (h3 : strIndexOf (appendAiContext c fs) endAiContextSection
          = some (c.length + aiContextSection.length + (String.intercalate "\n" fs).length)) :
    appendAiContext (appendAiContext c fs) fs = appendAiContext c fs := by
  have hr := appendAiContext_of_no_start c fs h1
  rw [appendAiContext_of_found (appendAiContext c fs) fs _ _ h2 h3]
  rw [hr]
  rw [show c ++ aiContextSection ++ String.intercalate "\n" fs ++ endAiContextSection
        = c ++ (aiContextSection ++ String.intercalate "\n" fs ++ endAiContextSection) by
      simp [String.append_assoc]]
  rw [strTake_append_length]
  rw [strDrop_of_length_le _ _ (by
    simp [String.length_append]
    omega)]
  rw [str_append_empty]
  simp [String.append_assoc]

/-- Claim C2 witness: concrete idempotent append. -/
theorem appendAiContext_idem_witness :
    appendAiContext (appendAiContext "Some notes." ["Used in header."]) ["Used in header."]
      = appendAiContext "Some notes." ["Used in header."] :=
  appendAiContext_idem "Some notes." ["Used in header."] (by decide) (by decide) (by decide)

/-- Claim C3 counterexample: the empty context contains neither marker, yet
strip after append does not restore it when a fragment itself contains the
end marker (the strip cuts at the earlier occurrence inside the fragment). -/
theorem removeAIContext_roundtrip_cex :
    strIndexOf "" aiContextSection = none
      ∧ strIndexOf "" endAiContextSection = none
      ∧ removeAIContext (appendAiContext "" ["x\n✨ 🔚"]) ≠ "" := by decide

/-- Claim C3 (amended): strip after append restores the original context
byte-for-byte provided the context does not contain the start marker and the
first marker occurrences in the appended result are the freshly appended
ones. -/
theorem removeAIContext_appendAiContext (c : String) (fs : List String)
    (h1 : strIndexOf c aiContextSection = none)
    (h2 : strIndexOf (appendAiContext c fs) aiContextSection = some c.length)
    (h3 : strIndexOf (appendAiContext c fs) endAiContextSection
          = some (c.length + aiContextSection.length + (String.intercalate "\n" fs).length)) :
    removeAIContext (appendAiContext c fs) = c := by
  have hr := appendAiContext_of_no_start c fs h1
  have hne : appendAiContext c fs ≠ "" := by
    intro hcontra
    have hlen : (appendAiContext c fs).length = 0 := by rw [hcontra]; rfl
    rw [hr] at hlen
    simp [String.length_append] at hlen
    have : aiContextSection.length = 15 := by decide
    omega
  rw [removeAIContext_of_found (appendAiContext c fs) _ _ hne h2 h3]
  rw [hr]
  rw [show c ++ aiContextSection ++ String.intercalate "\n" fs ++ endAiContextSection
        = c ++ (aiContextSection ++ String.intercalate "\n" fs ++ endAiContextSection) by
      simp [String.append_assoc]]
  rw [strTake_append_length]
  rw [strDrop_of_length_le _ _ (by
    simp [String.length_append]
    omega)]
  exact str_append_empty c

/-- Claim C3 witness: concrete strip-after-append round trip. -/
theorem removeAIContext_appendAiContext_witness :
    removeAIContext (appendAiContext "Existing context." ["Used as a save button label"])
      = "Existing context." :=
  removeAIContext_appendAiContext "Existing context." ["Used as a save button label"]
    (by decide) (by decide) (by decide)

/-! ## Strings chunker lemmas -/

theorem eraseIdChunk_cons_ne (t : CrowdinString) (l : List CrowdinString) (i : Int)
    (h : t.id ≠ i) : eraseIdChunk (t :: l) i = t :: eraseIdChunk l i := by
  simp [eraseIdChunk, List.filter_cons, h]

theorem eraseIdChunk_cons_eq (t : CrowdinString) (l : List CrowdinString) (i : Int)
    (h : t.id = i) : eraseIdChunk (t :: l) i = eraseIdChunk l i := by
  simp [eraseIdChunk, List.filter_cons, h]

theorem eraseIdChunk_eq_self (l : List CrowdinString) (i : Int)
    (h : ∀ x ∈ l, x.id ≠ i) : eraseIdChunk l i = l := by
  induction l with
  | nil => rfl
  | cons t ts ih =>
      rw [eraseIdChunk_cons_ne t ts i (h t (by simp))]
      rw [ih (fun x hx => h x (by simp [hx]))]

theorem mem_insertChunk (chunk : List CrowdinString) (s c : CrowdinString)
    (hc : c ∈ insertChunk chunk s) : c = s ∨ c ∈ chunk := by
  induction chunk with
  | nil => simpa [insertChunk] using hc
  | cons t ts ih =>
      unfold insertChunk at hc
      by_cases h1 : s.id < t.id
      · rw [if_pos h1] at hc
        simp at hc ⊢
        tauto
      · rw [if_neg h1] at hc
        by_cases h2 : s.id = t.id
        · rw [if_pos h2] at hc
          simp at hc ⊢
          tauto
        · rw [if_neg h2] at hc
          simp at hc ⊢
          rcases hc with hc | hc
          · tauto
          · rcases ih hc with h | h
            · tauto
            · tauto

theorem eraseIdChunk_insertChunk (chunk : List CrowdinString) (s : CrowdinString)
    (h : ∀ x ∈ chunk, x.id ≠ s.id) :
    eraseIdChunk (insertChunk chunk s) s.id = chunk := by
  induction chunk with
  | nil => simp [insertChunk, eraseIdChunk]
  | cons t ts ih =>
      have ht : t.id ≠ s.id := h t (by simp)
      have hts : ∀ x ∈ ts, x.id ≠ s.id := fun x hx => h x (by simp [hx])
      unfold insertChunk
      by_cases h1 : s.id < t.id
      · rw [if_pos h1, eraseIdChunk_cons_eq s _ _ rfl, eraseIdChunk_cons_ne t _ _ ht,
            eraseIdChunk_eq_self ts _ hts]
      · by_cases h2 : s.id = t.id
        · exact absurd h2.symm ht
        · rw [if_neg h1, if_neg h2, eraseIdChunk_cons_ne t _ _ ht, ih hts]

theorem buildStringsChunk_inv (tok : String → Nat) (limit : Nat) :
    ∀ pending chunk, ((pending.map (fun s => s.id)).Nodup) →
      (∀ x ∈ pending, ∀ c ∈ chunk, c.id ≠ x.id) →
      (chunk = [] ∨ tok (stringifyStrings chunk) ≤ limit) →
      (buildStringsChunk tok limit chunk pending = []
        ∨ tok (stringifyStrings (buildStringsChunk tok limit chunk pending)) ≤ limit) := by
  intro pending
  induction pending with
  | nil => intro chunk _ _ hI; exact hI
  | cons s rest ih =>
      intro chunk hnd hfresh hI
      have hnd2 : (rest.map (fun s => s.id)).Nodup := by
        rw [List.map_cons, List.nodup_cons] at hnd
        exact hnd.2
      have hsid : s.id ∉ rest.map (fun t => t.id) := by
        rw [List.map_cons, List.nodup_cons] at hnd
        exact hnd.1
      unfold buildStringsChunk
      by_cases hover : limit < tok (stringifyStrings (insertChunk chunk s))
      · rw [if_pos hover]
        rw [eraseIdChunk_insertChunk chunk s (fun c hc => hfresh s (by simp) c hc)]
        exact hI
      · rw [if_neg hover]
        apply ih
        · exact hnd2
        · intro x hx c hc
          rcases mem_insertChunk chunk s c hc with hceq | hcmem
          · rw [hceq]
            intro hcontra
            exact hsid (by rw [hcontra]; exact List.mem_map_of_mem _ hx)
          · exact hfresh x (by simp [hx]) c hcmem
        · right
          omega

theorem stringsChunks_diverge_of_empty_chunk (tok : String → Nat) (limit : Nat)
    (pending : List CrowdinString) (hne : pending ≠ [])
    (hempty : buildStringsChunk tok limit [] pending = []) :
    ∀ fuel, getStringsChunksFuel tok limit fuel pending = none := by
  intro fuel
  induction fuel with
  | zero =>
      match pending, hne with
      | s :: rest, _ => rfl
  | succ n ih =>
      match pending, hne, hempty, ih with
      | s :: rest, _, hempty, ih =>
          show (match getStringsChunksFuel tok limit n
                  (stringsChunkStep tok limit (s :: rest)).2 with
                | none => none
                | some cs => some ((stringsChunkStep tok limit (s :: rest)).1 :: cs))
              = none
          have hstep : (stringsChunkStep tok limit (s :: rest)).2 = s :: rest := by
            unfold stringsChunkStep
            simp only [hempty]
            simp
          rw [hstep, ih]

/-- Claim C1 (code bug): on a single string whose serialized form alone
exceeds the chunk limit, `getStringsChunks` never terminates.  The inner
loop closes an empty chunk, no id is removed from `stringsToProceed`, and
the `while` loop repeats the identical iteration forever: for every fuel
the model returns `none` instead of emitting one chunk containing just that
string. -/
theorem getStringsChunks_oversized_diverges (fuel : Nat) :
    getStringsChunksFuel String.length 0 fuel [oversizedSaveString] = none :=
  stringsChunks_diverge_of_empty_chunk String.length 0 [oversizedSaveString]
    (by simp) (by decide) fuel

/-! ## Files chunker lemmas -/

theorem stringifyFiles_nil : stringifyFiles [] = "" := rfl

theorem stringifyFiles_singleton (c : String) : stringifyFiles [c] = c := by
  show String.join [c] = c
  simp [String.join]

theorem setKey_of_fresh (fc : FilesContent) (k : String) (v : String)
    (h : ∀ e ∈ fc, e.1 ≠ k) : setKey fc k v = fc ++ [(k, v)] := by
  induction fc with
  | nil => rfl
  | cons e rest ih =>
      unfold setKey
      rw [if_neg (h e (by simp))]
      rw [ih (fun x hx => h x (by simp [hx]))]
      rfl

theorem eraseKey_append_fresh (fc : FilesContent) (k : String) (v : String)
    (h : ∀ e ∈ fc, e.1 ≠ k) : eraseKey (fc ++ [(k, v)]) k = fc := by
  unfold eraseKey
  rw [List.filter_append]
  have h1 : fc.filter (fun e => e.1 ≠ k) = fc := by
    rw [List.filter_eq_self]
    intro e he
    simpa using h e he
  have h2 : List.filter (fun (e : String × String) => e.1 ≠ k) [(k, v)] = [] := by
    simp
  rw [h1, h2, List.append_nil]

theorem filesPass_bounded (tok : String → Nat) (limit : Nat) (hE : tok "" = 0) :
    ∀ keys fc chunk, keys.Nodup →
      (∀ k ∈ keys, ∀ e ∈ chunk, e.1 ≠ k) →
      (chunk = [] ∨ tok (stringifyFiles (chunk.map (fun e => e.2))) ≤ limit) →
      ((∀ c ∈ (filesPass tok limit keys fc chunk).pushed, tok (stringifyFiles c) ≤ limit)
        ∧ ((filesPass tok limit keys fc chunk).chunk = []
            ∨ tok (stringifyFiles
                ((filesPass tok limit keys fc chunk).chunk.map (fun e => e.2))) ≤ limit)) := by
  intro keys
  induction keys with
  | nil =>
      intro fc chunk _ _ hI
      exact ⟨by intro c hc; simp [filesPass] at hc, hI⟩
  | cons k rest ih =>
      intro fc chunk hnd hfresh hI
      have hndr : rest.Nodup := hnd.of_cons
      have hknr : k ∉ rest := by
        rw [List.nodup_cons] at hnd
        exact hnd.1
      have hfreshr : ∀ x ∈ rest, ∀ e ∈ chunk, e.1 ≠ x :=
        fun x hx => hfresh x (by simp [hx])
      unfold filesPass
      rcases hlook : lookupKey fc k with _ | content
      · simp only [hlook]
        exact ih fc chunk hndr hfreshr hI
      · simp only [hlook]
        by_cases hbig : limit < tok content
        · rw [if_pos hbig]
          exact ih _ chunk hndr hfreshr hI
        · rw [if_neg hbig]
          have hkfresh : ∀ e ∈ chunk, e.1 ≠ k := hfresh k (by simp)
          have hset : setKey chunk k content = chunk ++ [(k, content)] :=
            setKey_of_fresh chunk k content hkfresh
          have hclosed : closedChunk chunk k content = chunk := by
            unfold closedChunk
            rw [hset]
            exact eraseKey_append_fresh chunk k content hkfresh
          by_cases hover : limit < tok (stringifyFiles ((setKey chunk k content).map (fun e => e.2)))
          · rw [if_pos hover]
            constructor
            · intro c hc
              simp only [hclosed] at hc
              simp at hc
              rw [hc]
              rcases hI with hI | hI
              · rw [hI]
                simp [stringifyFiles_nil]
                omega
              · exact hI
            · simp only [hclosed]
              exact hI
          · rw [if_neg hover]
            apply ih
            · exact hndr
            · intro x hx e he
              rw [hset] at he
              rcases List.mem_append.mp he with he | he
              · exact hfreshr x hx e he
              · have hek : e = (k, content) := by simpa using he
                rw [hek]
                intro hcontra
                have hkx : k = x := hcontra
                exact hknr (by rw [hkx]; exact hx)
            · right
              omega

theorem nodup_keys_eraseKey (fc : FilesContent) (k : String)
    (h : (fc.map (fun p => p.1)).Nodup) : ((eraseKey fc k).map (fun p => p.1)).Nodup :=
  List.Nodup.sublist ((fc.filter_sublist).map (fun p => p.1)) h

theorem keys_setKey (fc : FilesContent) (k v : String) :
    (setKey fc k v).map (fun p => p.1)
      = if k ∈ fc.map (fun p => p.1) then fc.map (fun p => p.1)
        else fc.map (fun p => p.1) ++ [k] := by
  induction fc with
  | nil => simp [setKey]
  | cons e rest ih =>
      unfold setKey
      by_cases h : e.1 = k
      · rw [if_pos h]
        simp [h]
      · rw [if_neg h]
        rw [List.map_cons, List.map_cons, ih]
        have hne : ¬ k = e.1 := fun hh => h hh.symm
        by_cases hmem : k ∈ rest.map (fun p => p.1)
        · rw [if_pos hmem, if_pos (by rw [List.mem_cons]; exact Or.inr hmem)]
        · rw [if_neg hmem, if_neg (by
            intro hmem2
            rcases List.mem_cons.mp hmem2 with hc | hc
            · exact hne hc
            · exact hmem hc)]
          rfl

theorem nodup_keys_setKey (fc : FilesContent) (k v : String)
    (h : (fc.map (fun p => p.1)).Nodup) : ((setKey fc k v).map (fun p => p.1)).Nodup := by
  rw [keys_setKey]
  by_cases hmem : k ∈ fc.map (fun p => p.1)
  · rw [if_pos hmem]; exact h
  · rw [if_neg hmem]
    refine List.Nodup.append h (List.nodup_singleton k) ?_
    intro a ha hae
    have : a = k := by simpa using hae
    exact hmem (this ▸ ha)

theorem nodup_keys_addParts (fileKey : String) (parts : List String) :
    ∀ fc, (fc.map (fun p => p.1)).Nodup →
      ((addParts fc fileKey parts).map (fun p => p.1)).Nodup := by
  unfold addParts
  generalize parts.enum = l
  induction l with
  | nil => intro fc h; exact h
  | cons p ps ih =>
      intro fc h
      exact ih (setKey fc (fileKey ++ "-" ++ toString p.1) p.2)
        (nodup_keys_setKey fc _ _ h)

theorem nodup_keys_eraseKeys (ks : List String) :
    ∀ fc, (fc.map (fun p => p.1)).Nodup → ((eraseKeys fc ks).map (fun p => p.1)).Nodup := by
  induction ks with
  | nil => intro fc h; exact h
  | cons k ks ih =>
      intro fc h
      exact ih (eraseKey fc k) (nodup_keys_eraseKey fc k h)

theorem nodup_keys_filesSplitUpdate (tok : String → Nat) (limit : Nat)
    (fc : FilesContent) (k content : String) (h : (fc.map (fun p => p.1)).Nodup) :
    ((filesSplitUpdate tok limit fc k content).map (fun p => p.1)).Nodup := by
  unfold filesSplitUpdate
  cases splitLargeFile tok limit k content with
  | none => exact nodup_keys_eraseKey fc k h
  | some parts => exact nodup_keys_eraseKey _ k (nodup_keys_addParts k parts fc h)

theorem filesPass_keys_nodup (tok : String → Nat) (limit : Nat) :
    ∀ keys fc chunk, (fc.map (fun p => p.1)).Nodup →
      (((filesPass tok limit keys fc chunk).fc).map (fun p => p.1)).Nodup := by
  intro keys
  induction keys with
  | nil => intro fc chunk h; exact h
  | cons k rest ih =>
      intro fc chunk h
      unfold filesPass
      rcases hlook : lookupKey fc k with _ | content
      · simp only [hlook]
        exact ih fc chunk h
      · simp only [hlook]
        by_cases hbig : limit < tok content
        · rw [if_pos hbig]
          exact ih _ chunk (nodup_keys_filesSplitUpdate tok limit fc k content h)
        · rw [if_neg hbig]
          by_cases hover : limit < tok (stringifyFiles ((setKey chunk k content).map (fun e => e.2)))
          · rw [if_pos hover]
            exact nodup_keys_eraseKeys _ fc h
          · rw [if_neg hover]
            exact ih fc _ h

theorem filesNewChunks_bounded (tok : String → Nat) (limit : Nat) (hE : tok "" = 0)
    (fc : FilesContent) (hnd : (fc.map (fun p => p.1)).Nodup) :
    ∀ c ∈ filesNewChunks tok limit fc, tok (stringifyFiles c) ≤ limit := by
  intro c hc
  have hpass := filesPass_bounded tok limit hE (fc.map (fun p => p.1)) fc []
    hnd (by intro k hk e he; simp at he) (Or.inl rfl)
  unfold filesNewChunks at hc
  by_cases hlen : (filesPassFull tok limit fc).chunk.length = (filesPassFull tok limit fc).fc.length
  · rw [if_pos hlen] at hc
    rcases List.mem_append.mp hc with hc | hc
    · exact hpass.1 c hc
    · have hcc : c = (filesPassFull tok limit fc).chunk.map (fun p => p.2) := by
        simpa using hc
      rw [hcc]
      rcases hpass.2 with hch | hch
      · rw [show (filesPassFull tok limit fc).chunk = [] from hch]
        simp [stringifyFiles_nil]
        omega
      · exact hch
  · rw [if_neg hlen] at hc
    exact hpass.1 c hc

theorem filesNextFc_keys_nodup (tok : String → Nat) (limit : Nat) (fc : FilesContent)
    (hnd : (fc.map (fun p => p.1)).Nodup) :
    ((filesNextFc tok limit fc).map (fun p => p.1)).Nodup := by
  unfold filesNextFc
  by_cases hlen : (filesPassFull tok limit fc).chunk.length = (filesPassFull tok limit fc).fc.length
  · rw [if_pos hlen]; simp
  · rw [if_neg hlen]
    exact filesPass_keys_nodup tok limit (fc.map (fun p => p.1)) fc [] hnd

theorem filesChunksLoop_cons (tok : String → Nat) (limit : Nat) (fuel : Nat)
    (e : String × String) (rest : FilesContent) :
    filesChunksLoop tok limit (fuel + 1) (e :: rest)
      = match filesChunksLoop tok limit fuel (filesNextFc tok limit (e :: rest)) with
        | none => none
        | some cs => some (filesNewChunks tok limit (e :: rest) ++ cs) := rfl

theorem filesChunksLoop_bounded (tok : String → Nat) (limit : Nat) (hE : tok "" = 0) :
    ∀ fuel fc cs, (fc.map (fun p => p.1)).Nodup →
      filesChunksLoop tok limit fuel fc = some cs →
      ∀ c ∈ cs, tok (stringifyFiles c) ≤ limit := by
  intro fuel
  induction fuel with
  | zero =>
      intro fc cs hnd hsome
      cases fc with
      | nil =>
          have hcs : cs = [] := by simpa [filesChunksLoop] using hsome
          rw [hcs]
          intro c hc
          simp at hc
      | cons e rest => simp [filesChunksLoop] at hsome
  | succ n ih =>
      intro fc cs hnd hsome
      cases fc with
      | nil =>
          have hcs : cs = [] := by simpa [filesChunksLoop] using hsome
          rw [hcs]
          intro c hc
          simp at hc
      | cons e rest =>
          rw [filesChunksLoop_cons] at hsome
          rcases hrec : filesChunksLoop tok limit n (filesNextFc tok limit (e :: rest)) with _ | cs2
          · rw [hrec] at hsome
            simp at hsome
          · rw [hrec] at hsome
            simp at hsome
            rw [← hsome]
            intro c hc
            rcases List.mem_append.mp hc with hc | hc
            · exact filesNewChunks_bounded tok limit hE (e :: rest) hnd c hc
            · exact ih (filesNextFc tok limit (e :: rest)) cs2
                (filesNextFc_keys_nodup tok limit (e :: rest) hnd) hrec c hc

theorem getStringsChunksFuel_cons (tok : String → Nat) (limit : Nat) (fuel : Nat)
    (s : CrowdinString) (rest : List CrowdinString) :
    getStringsChunksFuel tok limit (fuel + 1) (s :: rest)
      = match getStringsChunksFuel tok limit fuel (stringsChunkStep tok limit (s :: rest)).2 with
        | none => none
        | some cs => some ((stringsChunkStep tok limit (s :: rest)).1 :: cs) := rfl

theorem stringsChunkStep_snd (tok : String → Nat) (limit : Nat) (pending : List CrowdinString) :
    (stringsChunkStep tok limit pending).2
      = pending.filter
          (fun s => !(((buildStringsChunk tok limit [] pending).map (fun t => t.id)).contains s.id)) := rfl

theorem nodup_ids_filter (pending : List CrowdinString) (p : CrowdinString → Bool)
    (h : (pending.map (fun s => s.id)).Nodup) :
    (((pending.filter p).map (fun s => s.id))).Nodup :=
  List.Nodup.sublist ((pending.filter_sublist).map (fun s => s.id)) h

theorem getStringsChunksFuel_bounded (tok : String → Nat) (limit : Nat) :
    ∀ fuel pending cs, (pending.map (fun s => s.id)).Nodup →
      getStringsChunksFuel tok limit fuel pending = some cs →
      ∀ c ∈ cs, tok (stringifyStrings c) ≤ limit := by
  intro fuel
  induction fuel with
  | zero =>
      intro pending cs hnd hsome
      cases pending with
      | nil =>
          have hcs : cs = [] := by simpa [getStringsChunksFuel] using hsome
          rw [hcs]
          intro c hc
          simp at hc
      | cons s rest => simp [getStringsChunksFuel] at hsome
  | succ n ih =>
      intro pending cs hnd hsome
      cases pending with
      | nil =>
          have hcs : cs = [] := by simpa [getStringsChunksFuel] using hsome
          rw [hcs]
          intro c hc
          simp at hc
      | cons s rest =>
          by_cases hempty : buildStringsChunk tok limit [] (s :: rest) = []
          · have hdiv := stringsChunks_diverge_of_empty_chunk tok limit (s :: rest)
              (by simp) hempty (n + 1)
            rw [hdiv] at hsome
            exact absurd hsome (by simp)
          · rw [getStringsChunksFuel_cons] at hsome
            rcases hrec : getStringsChunksFuel tok limit n
                (stringsChunkStep tok limit (s :: rest)).2 with _ | cs2
            · rw [hrec] at hsome
              simp at hsome
            · rw [hrec] at hsome
              simp at hsome
              rw [← hsome]
              intro c hc
              rcases List.mem_cons.mp hc with hc | hc
              · rw [hc]
                have hinv := buildStringsChunk_inv tok limit (s :: rest) [] hnd
                  (by intro x hx e he; simp at he) (Or.inl rfl)
                rcases hinv with h | h
                · exact absurd h hempty
                · exact h
              · refine ih _ cs2 ?_ hrec c hc
                rw [stringsChunkStep_snd]
                exact nodup_ids_filter (s :: rest) _ hnd

/-- Claim C4: every chunk emitted by the strings chunker
(`getStringsChunks`) and every chunk emitted by the file-content chunker
(the files loop of `chunkAndExtract`), in any terminating run, is at or
under the configured chunk limit or is a single oversized member.  In fact
the stronger left disjunct always holds: the planners never emit a
single-member oversized chunk (on such inputs the strings planner instead
fails to terminate, see the C1 result), so the exception clause is never
exercised.  Hypotheses: distinct string ids, distinct file keys, and a
tokenizer that maps the empty string to zero tokens. -/
theorem chunk_budget_invariant (tok : String → Nat) (limit : Nat)
    (pending : List CrowdinString) (fc : FilesContent)
    (fuelS fuelF : Nat) (scs : List (List CrowdinString)) (fcs : List (List String))
    (hE : tok "" = 0)
    (hnd : (pending.map (fun s => s.id)).Nodup)
    (hndf : (fc.map (fun p => p.1)).Nodup)
    (hs : getStringsChunksFuel tok limit fuelS pending = some scs)
    (hf : filesChunksLoop tok limit fuelF fc = some fcs) :
    (∀ c ∈ scs, tok (stringifyStrings c) ≤ limit
        ∨ (c.length = 1 ∧ limit < tok (stringifyStrings c)))
      ∧ (∀ c ∈ fcs, tok (stringifyFiles c) ≤ limit
        ∨ (c.length = 1 ∧ limit < tok (stringifyFiles c))) :=
  ⟨fun c hc => Or.inl (getStringsChunksFuel_bounded tok limit fuelS pending scs hnd hs c hc),
   fun c hc => Or.inl (filesChunksLoop_bounded tok limit hE fuelF fc fcs hndf hf c hc)⟩

/-- Claim C4 witness: a concrete terminating run of both planners (tokenizer
= character count, limit 1000) whose emitted chunks all satisfy the budget
invariant. -/
theorem chunk_budget_invariant_witness :
    (∀ c ∈ [[oversizedSaveString]], String.length (stringifyStrings c) ≤ 1000
        ∨ (c.length = 1 ∧ 1000 < String.length (stringifyStrings c)))
      ∧ (∀ c ∈ [["xy"]], String.length (stringifyFiles c) ≤ 1000
        ∨ (c.length = 1 ∧ 1000 < String.length (stringifyFiles c))) :=
  chunk_budget_invariant String.length 1000 [oversizedSaveString] [("a", "xy")] 1 1
    [[oversizedSaveString]] [["xy"]] rfl (by decide) (by decide) (by decide) (by decide)

/-- Claim C5 (code bug): two files whose contents each fit under the limit
but whose concatenation overflows it.  The overflow `break` pushes the
closed chunk `["aa"]` and deletes its key from `filesContent`; the
key-count test that follows (`1 === 1`) then pushes the same chunk a second
time and clears `filesContent`, so the chunk `["aa"]` is emitted twice and
the second file's content `"bb"` is never emitted and never reported. -/
theorem filesChunks_duplicate_and_drop_cex :
    filesChunksLoop String.length 3 2 [("fileA", "aa"), ("fileB", "bb")]
      = some [["aa"], ["aa"]] := by decide

/-! ## appendContext lemmas -/

theorem appendContext_cons (strings : List CrowdinString) (r : ContextResult)
    (rs : List ContextResult) :
    appendContext strings (r :: rs) = appendContext (appendContextOne strings r) rs := rfl

theorem applyResult_id (s : CrowdinString) (r : ContextResult) :
    (applyResult s r).id = s.id := by
  unfold applyResult
  cases truthyContext r <;> rfl

theorem appendContextOne_ids (strings : List CrowdinString) (r : ContextResult) :
    (appendContextOne strings r).map (fun s => s.id) = strings.map (fun s => s.id) := by
  induction strings with
  | nil => rfl
  | cons s rest ih =>
      unfold appendContextOne
      by_cases h : s.id = r.id
      · rw [if_pos h]
        rw [List.map_cons, List.map_cons, applyResult_id]
      · rw [if_neg h]
        rw [List.map_cons, List.map_cons, ih]

theorem appendContextOne_unknown (strings : List CrowdinString) (r : ContextResult)
    (h : r.id ∉ strings.map (fun s => s.id)) : appendContextOne strings r = strings := by
  induction strings with
  | nil => rfl
  | cons s rest ih =>
      unfold appendContextOne
      have h1 : ¬ s.id = r.id := by
        intro hc
        exact h (by rw [List.map_cons, List.mem_cons]; exact Or.inl hc.symm)
      rw [if_neg h1, ih (fun hc => h (by rw [List.map_cons, List.mem_cons]; exact Or.inr hc))]

/-- Claim C6: merging results via `appendContext` drops every result whose
string id does not match a known string id, silently and without modifying
any other string: filtering the unknown-id results out of the result list
leaves the merged output unchanged, for every strings list and result
list. -/
theorem appendContext_drops_unknown_ids (strings : List CrowdinString)
    (results : List ContextResult) :
    appendContext strings results
      = appendContext strings
          (results.filter (fun r => (strings.map (fun s => s.id)).contains r.id)) := by
  induction results generalizing strings with
  | nil => rfl
  | cons r rs ih =>
      rw [List.filter_cons]
      by_cases h : ((strings.map (fun s => s.id)).contains r.id) = true
      · rw [if_pos h, appendContext_cons, appendContext_cons, ih (appendContextOne strings r),
            appendContextOne_ids]
      · rw [if_neg h, appendContext_cons,
            appendContextOne_unknown strings r (by simpa using h), ih strings]

/-! ## Append-only and no-empty-entry lemmas (Claim C7) -/

theorem truthyContext_ne_empty (r : ContextResult) (c : String)
    (h : truthyContext r = some c) : c ≠ "" := by
  unfold truthyContext at h
  rcases hc : r.context with _ | c0
  · simp only [hc] at h
    exact absurd h (by simp)
  · simp only [hc] at h
    by_cases hc0 : c0 = ""
    · rw [if_pos hc0] at h
      exact absurd h (by simp)
    · rw [if_neg hc0] at h
      have hcc : c0 = c := by simpa using h
      rw [← hcc]
      exact hc0

theorem applyResult_fragments (s : CrowdinString) (r : ContextResult) :
    fragmentsOf s <+: fragmentsOf (applyResult s r) := by
  unfold applyResult
  rcases htc : truthyContext r with _ | c
  · exact List.prefix_refl _
  · show fragmentsOf s
      <+: fragmentsOf ⟨s.id, s.text, s.identifier, s.context, some (s.aiContext.getD [] ++ [c])⟩
    unfold fragmentsOf
    exact List.prefix_append _ _

theorem forall2_prefix_trans (l1 l2 l3 : List CrowdinString)
    (h12 : List.Forall₂ (fun s t => s.id = t.id ∧ fragmentsOf s <+: fragmentsOf t) l1 l2)
    (h23 : List.Forall₂ (fun s t => s.id = t.id ∧ fragmentsOf s <+: fragmentsOf t) l2 l3) :
    List.Forall₂ (fun s t => s.id = t.id ∧ fragmentsOf s <+: fragmentsOf t) l1 l3 := by
  induction h12 generalizing l3 with
  | nil =>
      cases h23
      exact List.Forall₂.nil
  | cons hab h ih =>
      cases h23 with
      | cons hbc h2 =>
          exact List.Forall₂.cons ⟨hab.1.trans hbc.1, hab.2.trans hbc.2⟩ (ih _ h2)

theorem appendContextOne_append_only (strings : List CrowdinString) (r : ContextResult) :
    List.Forall₂ (fun s t => s.id = t.id ∧ fragmentsOf s <+: fragmentsOf t)
      strings (appendContextOne strings r) := by
  induction strings with
  | nil => exact List.Forall₂.nil
  | cons s rest ih =>
      unfold appendContextOne
      by_cases h : s.id = r.id
      · rw [if_pos h]
        exact List.Forall₂.cons ⟨(applyResult_id s r).symm, applyResult_fragments s r⟩
          (List.forall₂_same.mpr (fun a _ => ⟨rfl, List.prefix_refl _⟩))
      · rw [if_neg h]
        exact List.Forall₂.cons ⟨rfl, List.prefix_refl _⟩ ih

theorem appendContextOne_no_empty (strings : List CrowdinString) (r : ContextResult)
    (h : ∀ s ∈ strings, ∀ fgm ∈ fragmentsOf s, fgm ≠ "") :
    ∀ s ∈ appendContextOne strings r, ∀ fgm ∈ fragmentsOf s, fgm ≠ "" := by
  induction strings with
  | nil =>
      intro s hs
      simp [appendContextOne] at hs
  | cons s0 rest ih =>
      unfold appendContextOne
      by_cases hid : s0.id = r.id
      · rw [if_pos hid]
        intro s hs
        rcases List.mem_cons.mp hs with hs | hs
        · rw [hs]
          unfold applyResult
          rcases htc : truthyContext r with _ | c
          · exact h s0 (by simp)
          · intro fgm hfgm
            have hfr : fgm ∈ s0.aiContext.getD [] ++ [c] := by
              simpa [fragmentsOf] using hfgm
            rcases List.mem_append.mp hfr with hfr | hfr
            · exact h s0 (by simp) fgm (by simpa [fragmentsOf] using hfr)
            · have : fgm = c := by simpa using hfr
              rw [this]
              exact truthyContext_ne_empty r c htc
        · exact h s (by simp [hs])
      · rw [if_neg hid]
        intro s hs
        rcases List.mem_cons.mp hs with hs | hs
        · rw [hs]
          exact h s0 (by simp)
        · exact ih (fun x hx => h x (by simp [hx])) s hs

/-- Claim C7 (amended): every merge operation only appends to a string's
accumulated fragment list (ids are preserved position-wise and the old list
is a prefix of the new one), and — starting from fragment lists with no
empty entry — the merged lists never contain an empty entry.  (The original
claim also excluded whitespace-only entries; the batch merge's truthiness
guard admits those, see the counterexample.) -/
theorem appendContext_append_only_no_empty (strings : List CrowdinString)
    (results : List ContextResult)
    (h : ∀ s ∈ strings, ∀ fgm ∈ fragmentsOf s, fgm ≠ "") :
    List.Forall₂ (fun s t => s.id = t.id ∧ fragmentsOf s <+: fragmentsOf t)
        strings (appendContext strings results)
      ∧ ∀ s ∈ appendContext strings results, ∀ fgm ∈ fragmentsOf s, fgm ≠ "" := by
  induction results generalizing strings with
  | nil => exact ⟨List.forall₂_same.mpr (fun a _ => ⟨rfl, List.prefix_refl _⟩), h⟩
  | cons r rs ih =>
      rw [appendContext_cons]
      obtain ⟨ha, hb⟩ := ih (appendContextOne strings r) (appendContextOne_no_empty strings r h)
      exact ⟨forall2_prefix_trans _ _ _ (appendContextOne_append_only strings r) ha, hb⟩

/-- Claim C7 witness: a concrete merge is append-only with no empty entry. -/
theorem appendContext_append_only_no_empty_witness :
    List.Forall₂ (fun s t => s.id = t.id ∧ fragmentsOf s <+: fragmentsOf t)
        ([⟨1, "Save", "btn.save", "", none⟩] : List CrowdinString)
        (appendContext [⟨1, "Save", "btn.save", "", none⟩] [⟨1, some "Used as a label"⟩])
      ∧ ∀ s ∈ appendContext ([⟨1, "Save", "btn.save", "", none⟩] : List CrowdinString)
            [⟨1, some "Used as a label"⟩],
          ∀ fgm ∈ fragmentsOf s, fgm ≠ "" :=
  appendContext_append_only_no_empty [⟨1, "Save", "btn.save", "", none⟩]
    [⟨1, some "Used as a label"⟩] (by decide)

/-- Claim C7 counterexample: the merge guard rejects the empty string but
admits a whitespace-only context, which lands on the fragment list. -/
theorem appendContext_whitespace_cex :
    appendContext ([⟨1, "Save", "btn.save", "", none⟩] : List CrowdinString) [⟨1, some " "⟩]
      = [⟨1, "Save", "btn.save", "", some [" "]⟩]
      ∧ (" " : String) ≠ "" ∧ ∀ c ∈ (" " : String).toList, c = ' ' := by decide

/-! ## Outgoing batch patch (Claim C8) -/

/-- Claim C8: the batch patch built by `uploadAiStringsToCrowdin` contains
exactly one `replace` operation per included string; a string is included
iff it has at least one non-empty new fragment or upload-all mode is on
(in which case every loaded row is included); and the patched value is the
marker-merged context in normal mode but the loaded `context` field
verbatim in upload-all mode.  Hypotheses: accumulated fragments are
non-empty strings (guaranteed by both producers, see C7) and patch paths
are pairwise distinct (ids are unique within a run). -/
theorem uploadBatch_spec (strings : List CrowdinString) (uploadAll : Bool)
    (hents : ∀ s ∈ strings, ∀ fgm ∈ s.aiContext.getD [], fgm ≠ "")
    (hnd : (strings.map contextPath).Nodup) :
    (∀ op ∈ contextUpdateBatchRequest strings uploadAll, op.op = "replace")
      ∧ (∀ s ∈ strings,
          ((∃ op ∈ contextUpdateBatchRequest strings uploadAll, op.path = contextPath s)
            ↔ (uploadAll = true ∨ ∃ fgm ∈ s.aiContext.getD [], fgm ≠ "")))
      ∧ (∀ s ∈ strings, ∀ op1 ∈ contextUpdateBatchRequest strings uploadAll,
          ∀ op2 ∈ contextUpdateBatchRequest strings uploadAll,
          op1.path = contextPath s → op2.path = contextPath s → op1 = op2)
      ∧ (∀ s ∈ strings, ∀ op ∈ contextUpdateBatchRequest strings uploadAll,
          op.path = contextPath s →
          op.value = if uploadAll then s.context
                     else appendAiContext s.context (s.aiContext.getD [])) := by
  have hinj : ∀ x ∈ strings, ∀ y ∈ strings, contextPath x = contextPath y → x = y :=
    fun x hx y hy hxy => List.inj_on_of_nodup_map hnd hx hy hxy
  refine ⟨?_, ?_, ?_, ?_⟩
  · intro op hop
    rcases List.mem_map.mp hop with ⟨s1, _, hop1⟩
    rw [← hop1]
  · intro s hs
    constructor
    · rintro ⟨op, hop, hpath⟩
      rcases List.mem_map.mp hop with ⟨s1, hs1, hop1⟩
      have hs1m : s1 ∈ strings := List.mem_of_mem_filter hs1
      have hps : s1 = s := hinj s1 hs1m s hs (by rw [← hpath, ← hop1])
      have hpred := (List.mem_filter.mp hs1).2
      rw [hps] at hpred
      rcases Bool.or_eq_true _ _ |>.mp hpred with hlen | hup
      · right
        have hlen2 : 0 < (s.aiContext.getD []).length := of_decide_eq_true hlen
        rcases List.exists_mem_of_ne_nil _ (List.ne_nil_of_length_pos hlen2) with ⟨fgm, hfgm⟩
        exact ⟨fgm, hfgm, hents s hs fgm hfgm⟩
      · left
        exact hup
    · intro hcond
      have hpred : (decide (0 < (s.aiContext.getD []).length) || uploadAll) = true := by
        rcases hcond with hup | ⟨fgm, hfgm, _⟩
        · rw [hup, Bool.or_true]
        · rw [Bool.or_eq_true]
          left
          exact decide_eq_true (List.length_pos.mpr (List.ne_nil_of_mem hfgm))
      refine ⟨⟨"replace", contextPath s,
        if uploadAll then s.context else appendAiContext s.context (s.aiContext.getD [])⟩,
        ?_, rfl⟩
      exact List.mem_map_of_mem _ (List.mem_filter.mpr ⟨hs, hpred⟩)
  · intro s hs op1 hop1 op2 hop2 hp1 hp2
    rcases List.mem_map.mp hop1 with ⟨s1, hs1, he1⟩
    rcases List.mem_map.mp hop2 with ⟨s2, hs2, he2⟩
    have h12 : s1 = s2 := by
      apply hinj s1 (List.mem_of_mem_filter hs1) s2 (List.mem_of_mem_filter hs2)
      rw [show contextPath s1 = op1.path from by rw [← he1], hp1,
          show contextPath s2 = op2.path from by rw [← he2], hp2]
    rw [← he1, ← he2, h12]
  · intro s hs op hop hpath
    rcases List.mem_map.mp hop with ⟨s1, hs1, he1⟩
    have hps : s1 = s := hinj s1 (List.mem_of_mem_filter hs1) s hs (by rw [← hpath, ← he1])
    rw [← he1, hps]

/-- Claim C8 witness: a concrete batch in normal mode, one string with a
fragment and one without. -/
theorem uploadBatch_spec_witness :
    (∀ op ∈ contextUpdateBatchRequest
        [(⟨1, "Save", "btn.save", "c1", some ["frag"]⟩ : CrowdinString),
         ⟨2, "Cancel", "btn.cancel", "c2", none⟩] false, op.op = "replace")
      ∧ (∀ s ∈ [(⟨1, "Save", "btn.save", "c1", some ["frag"]⟩ : CrowdinString),
           ⟨2, "Cancel", "btn.cancel", "c2", none⟩],
          ((∃ op ∈ contextUpdateBatchRequest
              [(⟨1, "Save", "btn.save", "c1", some ["frag"]⟩ : CrowdinString),
               ⟨2, "Cancel", "btn.cancel", "c2", none⟩] false, op.path = contextPath s)
            ↔ (false = true ∨ ∃ fgm ∈ s.aiContext.getD [], fgm ≠ "")))
      ∧ (∀ s ∈ [(⟨1, "Save", "btn.save", "c1", some ["frag"]⟩ : CrowdinString),
           ⟨2, "Cancel", "btn.cancel", "c2", none⟩],
          ∀ op1 ∈ contextUpdateBatchRequest
              [(⟨1, "Save", "btn.save", "c1", some ["frag"]⟩ : CrowdinString),
               ⟨2, "Cancel", "btn.cancel", "c2", none⟩] false,
          ∀ op2 ∈ contextUpdateBatchRequest
              [(⟨1, "Save", "btn.save", "c1", some ["frag"]⟩ : CrowdinString),
               ⟨2, "Cancel", "btn.cancel", "c2", none⟩] false,
          op1.path = contextPath s → op2.path = contextPath s → op1 = op2)
      ∧ (∀ s ∈ [(⟨1, "Save", "btn.save", "c1", some ["frag"]⟩ : CrowdinString),
           ⟨2, "Cancel", "btn.cancel", "c2", none⟩],
          ∀ op ∈ contextUpdateBatchRequest
              [(⟨1, "Save", "btn.save", "c1", some ["frag"]⟩ : CrowdinString),
               ⟨2, "Cancel", "btn.cancel", "c2", none⟩] false,
          op.path = contextPath s →
          op.value = if false then s.context
                     else appendAiContext s.context (s.aiContext.getD [])) :=
  uploadBatch_spec
    [⟨1, "Save", "btn.save", "c1", some ["frag"]⟩, ⟨2, "Cancel", "btn.cancel", "c2", none⟩]
    false (by decide) (by decide)

/-! ## The since filter (Claim C10) -/

theorem filterSince_of_none (ps pc : String → Option Int) (since : Option String)
    (strs : List FetchedString) (h : sinceDateOf ps since = none) :
    filterSince ps pc since strs = strs := by
  unfold filterSince
  rw [h]

theorem filterSince_of_some (ps pc : String → Option Int) (since : Option String)
    (strs : List FetchedString) (t : Int) (h : sinceDateOf ps since = some t) :
    filterSince ps pc since strs
      = strs.filter (fun str =>
          match str.createdAt with
          | none => false
          | some ca =>
              if ca = "" then false
              else
                match pc ca with
                | none => false
                | some ts => decide (t ≤ ts)) := by
  unfold filterSince
  rw [h]

/-- Claim C10: when `since` is absent, empty, or unparseable, no string is
filtered out; when it parses to a timestamp, the returned list contains
exactly the fetched strings whose `createdAt` is present, truthy, and
parses to a timestamp at or after it (strings with missing or unparseable
`createdAt` are excluded).  `parseSince`/`parseCreated` abstract the
external `chrono.parseDate` and `Date.parse`. -/
theorem filterSince_spec (ps pc : String → Option Int) (since : Option String)
    (strs : List FetchedString) :
    (sinceDateOf ps since = none → filterSince ps pc since strs = strs)
      ∧ (∀ t, sinceDateOf ps since = some t →
          ∀ x, x ∈ filterSince ps pc since strs
            ↔ (x ∈ strs ∧ ∃ ca, x.createdAt = some ca ∧ ca ≠ ""
                ∧ ∃ ts, pc ca = some ts ∧ t ≤ ts)) := by
  constructor
  · exact filterSince_of_none ps pc since strs
  · intro t ht x
    rw [filterSince_of_some ps pc since strs t ht, List.mem_filter]
    constructor
    · rintro ⟨hx, hp⟩
      refine ⟨hx, ?_⟩
      rcases hca : x.createdAt with _ | ca
      · simp only [hca] at hp
        exact absurd hp (by simp)
      · simp only [hca] at hp
        by_cases hcae : ca = ""
        · rw [if_pos hcae] at hp
          simp at hp
        · rw [if_neg hcae] at hp
          rcases hts : pc ca with _ | ts
          · simp only [hts] at hp
            exact absurd hp (by simp)
          · simp only [hts] at hp
            exact ⟨ca, rfl, hcae, ts, hts, of_decide_eq_true hp⟩
    · rintro ⟨hx, ca, hca, hcae, ts, hts, hle⟩
      refine ⟨hx, ?_⟩
      simp only [hca, if_neg hcae, hts]
      exact decide_eq_true hle

/-- Claim C10 witness: an unparseable `since` filters nothing out. -/
theorem filterSince_spec_witness :
    filterSince (fun _ => none) (fun _ => none) (some "not a date")
        [(⟨1, "Save", "btn.save", "", some "2024-01-01"⟩ : FetchedString)]
      = [⟨1, "Save", "btn.save", "", some "2024-01-01"⟩] :=
  (filterSince_spec (fun _ => none) (fun _ => none) (some "not a date")
    [⟨1, "Save", "btn.save", "", some "2024-01-01"⟩]).1 (by decide)

/-! ## Scheduler lemmas (Claim C9) -/

theorem runningIdx_ready : runningIdx WorkerStatus.ready = none := rfl

theorem runningIdx_finished : runningIdx WorkerStatus.finished = none := rfl

theorem runningIdx_running (i : Nat) : runningIdx (WorkerStatus.running i) = some i := rfl

theorem filterMap_cons_toList {α β : Type} (g : α → Option β) (x : α) (xs : List α) :
    (x :: xs).filterMap g = (g x).toList ++ xs.filterMap g := by
  cases hgx : g x <;> simp [List.filterMap_cons, hgx]

theorem perm_rotate3 {β : Type} (A F X : List β) : (A ++ F ++ X).Perm (X ++ F ++ A) := by
  have s1 : (A ++ F ++ X).Perm (X ++ (A ++ F)) := List.perm_append_comm
  have s2 : (X ++ (A ++ F)).Perm (X ++ (F ++ A)) := List.Perm.append_left X List.perm_append_comm
  have s3 : X ++ (F ++ A) = X ++ F ++ A := (List.append_assoc X F A).symm
  exact (s1.trans s2).trans (s3 ▸ List.Perm.refl _)

theorem filterMap_set_perm {α β : Type} (g : α → Option β) :
    ∀ (ws : List α) (w : Nat) (a b : α), ws[w]? = some b →
      ((ws.set w a).filterMap g ++ (g b).toList).Perm (ws.filterMap g ++ (g a).toList) := by
  intro ws
  induction ws with
  | nil =>
      intro w a b h
      simp at h
  | cons x xs ih =>
      intro w a b h
      cases w with
      | zero =>
          have hbx : x = b := by simpa using h
          subst hbx
          rw [List.set_cons_zero, filterMap_cons_toList, filterMap_cons_toList]
          exact perm_rotate3 (g a).toList (xs.filterMap g) (g x).toList
      | succ w =>
          have hxs : xs[w]? = some b := by simpa using h
          rw [List.set_cons_succ, filterMap_cons_toList, filterMap_cons_toList]
          rw [List.append_assoc, List.append_assoc]
          exact List.Perm.append_left (g x).toList (ih w a b hxs)

theorem poolStep_ready_finish (len : Nat) (st : PoolState) (w : Nat)
    (hw : st.workers[w]? = some WorkerStatus.ready) (hc : len ≤ st.cursor) :
    poolStep len st w = ⟨st.cursor, st.workers.set w WorkerStatus.finished, st.done⟩ := by
  unfold poolStep
  simp only [hw]
  rw [if_pos hc]

theorem poolStep_ready_claim (len : Nat) (st : PoolState) (w : Nat)
    (hw : st.workers[w]? = some WorkerStatus.ready) (hc : ¬ len ≤ st.cursor) :
    poolStep len st w
      = ⟨st.cursor + 1, st.workers.set w (WorkerStatus.running st.cursor), st.done⟩ := by
  unfold poolStep
  simp only [hw]
  rw [if_neg hc]

theorem poolStep_running (len : Nat) (st : PoolState) (w i : Nat)
    (hw : st.workers[w]? = some (WorkerStatus.running i)) :
    poolStep len st w = ⟨st.cursor, st.workers.set w WorkerStatus.ready, st.done ++ [i]⟩ := by
  unfold poolStep
  simp only [hw]

theorem poolStep_inv (len : Nat) (st : PoolState) (w : Nat) (h : PoolInv len st) :
    PoolInv len (poolStep len st w) := by
  obtain ⟨h1, h2, h3⟩ := h
  rcases hw : st.workers[w]? with _ | status
  · have : poolStep len st w = st := by
      unfold poolStep
      simp only [hw]
    rw [this]
    exact ⟨h1, h2, h3⟩
  · cases status with
    | ready =>
        by_cases hc : len ≤ st.cursor
        · rw [poolStep_ready_finish len st w hw hc]
          refine ⟨h1, ?_, fun _ => hc⟩
          have hp := filterMap_set_perm runningIdx st.workers w
            WorkerStatus.finished WorkerStatus.ready hw
          rw [runningIdx_ready, runningIdx_finished] at hp
          simp only [Option.toList_none, List.append_nil] at hp
          exact (List.Perm.append_left st.done hp).trans h2
        · rw [poolStep_ready_claim len st w hw hc]
          have hcl : st.cursor < len := Nat.lt_of_not_le hc
          refine ⟨hcl, ?_, ?_⟩
          · have hp := filterMap_set_perm runningIdx st.workers w
              (WorkerStatus.running st.cursor) WorkerStatus.ready hw
            rw [runningIdx_ready, runningIdx_running] at hp
            simp only [Option.toList_none, Option.toList_some, List.append_nil] at hp
            have hstep1 : (st.done
                ++ (st.workers.set w (WorkerStatus.running st.cursor)).filterMap runningIdx).Perm
                (st.done ++ (st.workers.filterMap runningIdx ++ [st.cursor])) :=
              List.Perm.append_left st.done hp
            rw [show st.done ++ (st.workers.filterMap runningIdx ++ [st.cursor])
                  = (st.done ++ st.workers.filterMap runningIdx) ++ [st.cursor]
                from (List.append_assoc _ _ _).symm] at hstep1
            have hstep3 : ((st.done ++ st.workers.filterMap runningIdx) ++ [st.cursor]).Perm
                (List.range st.cursor ++ [st.cursor]) := List.Perm.append_right _ h2
            show (st.done
              ++ inflight ⟨st.cursor + 1, st.workers.set w (WorkerStatus.running st.cursor), st.done⟩).Perm
              (List.range (st.cursor + 1))
            rw [List.range_succ]
            exact hstep1.trans hstep3
          · intro hmem
            rcases List.mem_or_eq_of_mem_set hmem with hmem | hmem
            · exact Nat.le_succ_of_le (h3 hmem)
            · exact absurd hmem (by simp)
    | running i =>
        rw [poolStep_running len st w i hw]
        refine ⟨h1, ?_, ?_⟩
        · have hp := filterMap_set_perm runningIdx st.workers w
            WorkerStatus.ready (WorkerStatus.running i) hw
          rw [runningIdx_ready, runningIdx_running] at hp
          simp only [Option.toList_none, Option.toList_some, List.append_nil] at hp
          have hstep1 : ((st.done ++ [i])
              ++ (st.workers.set w WorkerStatus.ready).filterMap runningIdx).Perm
              (st.done ++ ([i] ++ (st.workers.set w WorkerStatus.ready).filterMap runningIdx)) :=
            (List.append_assoc _ _ _) ▸ List.Perm.refl _
          have hstep2 : (st.done
              ++ ([i] ++ (st.workers.set w WorkerStatus.ready).filterMap runningIdx)).Perm
              (st.done ++ ((st.workers.set w WorkerStatus.ready).filterMap runningIdx ++ [i])) :=
            List.Perm.append_left st.done List.perm_append_comm
          have hstep3 : (st.done
              ++ ((st.workers.set w WorkerStatus.ready).filterMap runningIdx ++ [i])).Perm
              (st.done ++ st.workers.filterMap runningIdx) :=
            List.Perm.append_left st.done hp
          exact ((hstep1.trans hstep2).trans hstep3).trans h2
        · intro hmem
          rcases List.mem_or_eq_of_mem_set hmem with hmem | hmem
          · exact h3 hmem
          · exact absurd hmem (by simp)
    | finished =>
        have : poolStep len st w = st := by
          unfold poolStep
          simp only [hw]
        rw [this]
        exact ⟨h1, h2, h3⟩

theorem runPool_inv (len : Nat) (sched : List Nat) :
    ∀ st, PoolInv len st → PoolInv len (runPool len sched st) := by
  induction sched with
  | nil => intro st h; exact h
  | cons w ws ih => intro st h; exact ih (poolStep len st w) (poolStep_inv len st w h)

theorem initPool_inv (len n : Nat) : PoolInv len (initPool n) := by
  refine ⟨Nat.zero_le len, ?_, ?_⟩
  · have hnil : inflight (initPool n) = [] := by
      unfold inflight initPool
      rw [List.filterMap_eq_nil_iff]
      intro a ha
      rw [List.eq_of_mem_replicate ha]
      rfl
    show ((initPool n).done ++ inflight (initPool n)).Perm (List.range (initPool n).cursor)
    rw [hnil]
    exact List.Perm.refl _
  · intro hmem
    have := List.eq_of_mem_replicate hmem
    exact absurd this (by simp)

theorem poolDone_inflight_nil (st : PoolState) (h : poolDone st = true) : inflight st = [] := by
  unfold inflight
  rw [List.filterMap_eq_nil_iff]
  intro a ha
  have ha2 : a = WorkerStatus.finished := of_decide_eq_true (List.all_eq_true.mp h a ha)
  rw [ha2]
  rfl

theorem poolDone_cursor (len : Nat) (st : PoolState) (hinv : PoolInv len st)
    (hne : st.workers ≠ []) (h : poolDone st = true) : st.cursor = len := by
  obtain ⟨h1, _, h3⟩ := hinv
  rcases List.exists_mem_of_ne_nil _ hne with ⟨w0, hw0⟩
  have hfin : w0 = WorkerStatus.finished := of_decide_eq_true (List.all_eq_true.mp h w0 hw0)
  exact Nat.le_antisymm h1 (h3 (hfin ▸ hw0))

theorem poolStep_workers_length (len : Nat) (st : PoolState) (w : Nat) :
    (poolStep len st w).workers.length = st.workers.length := by
  rcases hw : st.workers[w]? with _ | status
  · unfold poolStep
    simp only [hw]
  · cases status with
    | ready =>
        by_cases hc : len ≤ st.cursor
        · rw [poolStep_ready_finish len st w hw hc]
          exact List.length_set st.workers w WorkerStatus.finished
        · rw [poolStep_ready_claim len st w hw hc]
          exact List.length_set st.workers w (WorkerStatus.running st.cursor)
    | running i =>
        rw [poolStep_running len st w i hw]
        exact List.length_set st.workers w WorkerStatus.ready
    | finished =>
        unfold poolStep
        simp only [hw]

theorem runPool_workers_length (len : Nat) (sched : List Nat) :
    ∀ st, (runPool len sched st).workers.length = st.workers.length := by
  induction sched with
  | nil => intro st; rfl
  | cons w ws ih =>
      intro st
      have : runPool len (w :: ws) st = runPool len ws (poolStep len st w) := rfl
      rw [this, ih (poolStep len st w), poolStep_workers_length]

theorem runPool_complete_perm (len n : Nat) (sched : List Nat)
    (hdone : poolDone (runPool len sched (initPool n)) = true) :
    (runPool len sched (initPool n)).done.Perm (List.range len) := by
  have hinv := runPool_inv len sched (initPool n) (initPool_inv len n)
  have hnil := poolDone_inflight_nil _ hdone
  have hne : (runPool len sched (initPool n)).workers ≠ [] := by
    intro hcontra
    have hlen := runPool_workers_length len sched (initPool n)
    rw [hcontra] at hlen
    have : (initPool n).workers.length = max 1 n := List.length_replicate _ _
    rw [this] at hlen
    simp at hlen
    omega
  have hcur := poolDone_cursor len _ hinv hne hdone
  have hperm := hinv.2.1
  rw [hnil, List.append_nil, hcur] at hperm
  exact hperm

theorem appendContextOne_cons_hit (s : CrowdinString) (rest : List CrowdinString)
    (r : ContextResult) (h : s.id = r.id) :
    appendContextOne (s :: rest) r = applyResult s r :: rest := by
  unfold appendContextOne
  rw [if_pos h]

theorem appendContextOne_cons_miss (s : CrowdinString) (rest : List CrowdinString)
    (r : ContextResult) (h : ¬ s.id = r.id) :
    appendContextOne (s :: rest) r = s :: appendContextOne rest r := by
  simp only [appendContextOne]
  rw [if_neg h]

theorem appendContextOne_swap (strings : List CrowdinString) (r1 r2 : ContextResult)
    (h : r1.id ≠ r2.id) :
    appendContextOne (appendContextOne strings r1) r2
      = appendContextOne (appendContextOne strings r2) r1 := by
  induction strings with
  | nil => rfl
  | cons s rest ih =>
      by_cases h1 : s.id = r1.id
      · have h2 : ¬ s.id = r2.id := fun hc => h (h1 ▸ hc ▸ rfl)
        rw [appendContextOne_cons_hit s rest r1 h1,
            appendContextOne_cons_miss s rest r2 h2,
            appendContextOne_cons_miss (applyResult s r1) rest r2
              (by rw [applyResult_id]; exact h2),
            appendContextOne_cons_hit s (appendContextOne rest r2) r1 h1]
      · by_cases h2 : s.id = r2.id
        · rw [appendContextOne_cons_miss s rest r1 h1,
              appendContextOne_cons_hit s rest r2 h2,
              appendContextOne_cons_hit s (appendContextOne rest r1) r2 h2,
              appendContextOne_cons_miss (applyResult s r2) rest r1
                (by rw [applyResult_id]; exact h1)]
        · rw [appendContextOne_cons_miss s rest r1 h1,
              appendContextOne_cons_miss s rest r2 h2,
              appendContextOne_cons_miss s (appendContextOne rest r1) r2 h2,
              appendContextOne_cons_miss s (appendContextOne rest r2) r1 h1,
              ih]

theorem appendContext_perm (strings : List CrowdinString) (rs1 rs2 : List ContextResult)
    (hperm : rs1.Perm rs2)
    (hcomm : ∀ x ∈ rs1, ∀ y ∈ rs1, x ≠ y → x.id ≠ y.id) :
    appendContext strings rs1 = appendContext strings rs2 := by
  unfold appendContext
  apply hperm.foldl_eq'
  intro x hx y hy z
  by_cases hxy : x = y
  · rw [hxy]
  · exact appendContextOne_swap z x y (hcomm x hx y hy hxy)

theorem ids_index_inj (items : List CrowdinString)
    (hnd : (items.map (fun s => s.id)).Nodup) (i j : Nat) (si sj : CrowdinString)
    (hi : items[i]? = some si) (hj : items[j]? = some sj) (hid : si.id = sj.id) : i = j := by
  have hi2 : (items.map (fun s => s.id))[i]? = some si.id := by
    rw [List.getElem?_map, hi]
    rfl
  have hj2 : (items.map (fun s => s.id))[j]? = some sj.id := by
    rw [List.getElem?_map, hj]
    rfl
  have hlt : i < (items.map (fun s => s.id)).length := by
    rcases List.getElem?_eq_some.mp hi2 with ⟨hl, _⟩
    exact hl
  apply List.getElem?_inj hlt hnd
  rw [hi2, hj2, hid]

theorem workerResult_some (items : List CrowdinString) (f : CrowdinString → Option String)
    (i : Nat) (r : ContextResult)
    (h : (match items[i]? with
          | none => none
          | some s =>
              match f s with
              | none => none
              | some c => if c = "" then none else some ⟨s.id, some c⟩) = some r) :
    ∃ s, items[i]? = some s ∧ r.id = s.id := by
  rcases hlook : items[i]? with _ | s
  · simp only [hlook] at h
    exact absurd h (by simp)
  · simp only [hlook] at h
    rcases hf : f s with _ | c
    · simp only [hf] at h
      exact absurd h (by simp)
    · simp only [hf] at h
      by_cases hce : c = ""
      · rw [if_pos hce] at h
        exact absurd h (by simp)
      · rw [if_neg hce] at h
        have : (⟨s.id, some c⟩ : ContextResult) = r := by simpa using h
        exact ⟨s, rfl, by rw [← this]⟩

theorem workerResults_pairwise_ids (items : List CrowdinString)
    (f : CrowdinString → Option String) (done : List Nat)
    (hnd : (items.map (fun s => s.id)).Nodup) :
    ∀ x ∈ workerResults items f done, ∀ y ∈ workerResults items f done,
      x ≠ y → x.id ≠ y.id := by
  intro x hx y hy hxy hid
  rcases List.mem_filterMap.mp hx with ⟨i, _, hgi⟩
  rcases List.mem_filterMap.mp hy with ⟨j, _, hgj⟩
  rcases workerResult_some items f i x hgi with ⟨si, hsi, hxi⟩
  rcases workerResult_some items f j y hgj with ⟨sj, hsj, hyj⟩
  have hij : i = j :=
    ids_index_inj items hnd i j si sj hsi hsj (by rw [← hxi, ← hyj, hid])
  rw [hij] at hgi
  rw [hgi] at hgj
  exact hxy (by simpa using hgj)

/-- Claim C9: in the concurrent per-string strategy, the pool size is
clamped to at least one worker; in every run in which `Promise.all`
resolves (every worker finished), the completed indices are a permutation
of all item indices — every string is processed exactly once and nothing is
in flight when the scheduler returns; and for a deterministic per-string
provider response `f`, two completed runs with any pool sizes and any task
interleavings merge to exactly the same final per-string context state. -/
theorem concurrent_scheduler_spec (items : List CrowdinString)
    (f : CrowdinString → Option String) (n1 n2 : Nat) (sched1 sched2 : List Nat)
    (hnd : (items.map (fun s => s.id)).Nodup)
    (h1 : poolDone (runPool items.length sched1 (initPool n1)) = true)
    (h2 : poolDone (runPool items.length sched2 (initPool n2)) = true) :
    1 ≤ (initPool n1).workers.length
      ∧ (runPool items.length sched1 (initPool n1)).done.Perm (List.range items.length)
      ∧ (runPool items.length sched2 (initPool n2)).done.Perm (List.range items.length)
      ∧ appendContext items
            (workerResults items f (runPool items.length sched1 (initPool n1)).done)
          = appendContext items
            (workerResults items f (runPool items.length sched2 (initPool n2)).done) := by
  have hp1 := runPool_complete_perm items.length n1 sched1 h1
  have hp2 := runPool_complete_perm items.length n2 sched2 h2
  refine ⟨?_, hp1, hp2, ?_⟩
  · show 1 ≤ (List.replicate (max 1 n1) WorkerStatus.ready).length
    rw [List.length_replicate]
    omega
  · have hdperm : (runPool items.length sched1 (initPool n1)).done.Perm
        ((runPool items.length sched2 (initPool n2)).done) := hp1.trans hp2.symm
    exact appendContext_perm items _ _ (hdperm.filterMap _)
      (workerResults_pairwise_ids items f _ hnd)

/-- Claim C9 witness: one item, pool sizes 1 and 2, two different complete
interleavings, identical merged result. -/
theorem concurrent_scheduler_spec_witness :
    1 ≤ (initPool 1).workers.length
      ∧ (runPool 1 [0, 0, 0] (initPool 1)).done.Perm (List.range 1)
      ∧ (runPool 1 [0, 0, 0, 1] (initPool 2)).done.Perm (List.range 1)
      ∧ appendContext [(⟨1, "Save", "btn.save", "", none⟩ : CrowdinString)]
            (workerResults [⟨1, "Save", "btn.save", "", none⟩] (fun _ => some "ctx")
              (runPool 1 [0, 0, 0] (initPool 1)).done)
          = appendContext [⟨1, "Save", "btn.save", "", none⟩]
            (workerResults [⟨1, "Save", "btn.save", "", none⟩] (fun _ => some "ctx")
              (runPool 1 [0, 0, 0, 1] (initPool 2)).done) :=
  concurrent_scheduler_spec [⟨1, "Save", "btn.save", "", none⟩] (fun _ => some "ctx")
    1 2 [0, 0, 0] [0, 0, 0, 1] (by decide) (by decide) (by decide)
